import Mathlib

/-!
Verification of `src/helpers.rs` from the submod repository (a subtitle
time-shift tool).  The functions embedded here are `smart_name`, `get_paths`,
`is_srt_or_vtt` and `is_timing`.

Embedding conventions:
* Rust `&str` / `String` values become `List Char`.  The filenames involved
  are ASCII, so Rust's byte indexing (`filename[len-4..]`) coincides with
  character indexing.
* Rust `f64` values become `SQ`, a sign-and-magnitude pair over `ℚ`.  This
  keeps IEEE-754's negative zero observable (Rust's `{:.2}` formatting prints
  a sign for `-0.0`, and `-0.0 >= 0.0` holds), while idealizing away binary
  rounding error; `{:.2}` is modelled as exact decimal rounding (half away
  from zero) of the magnitude to two places.
* Rust panics (out-of-bounds slice, `unwrap` of `None`) become the error
  value `Err.crash`; `format_err!` errors keep their own constructors.
* The two regexes `__\[[+-]\d+\.\d+_Sec[+-]\]` and `[+-]\d+\.\d+` become the
  parsers `tagParse` / `magParse`; `is_match` / `find` / `captures` with
  their leftmost-match semantics become the scanners `tagSplit` / `magSplit`.
  Both regexes put a non-digit literal after each `\d+`, so maximal-munch
  parsing agrees with the regex engine's match extents.
-/

namespace Submod

/-- ASCII digit test, the regex character class `\d`. -/
def isDig (c : Char) : Bool := decide (48 ≤ c.toNat ∧ c.toNat ≤ 57)

/-- The ASCII digit character for `d` (used to render `0`–`9`). -/
def digitChar (d : Nat) : Char :=
  match d with
  | 0 => '0'
  | 1 => '1'
  | 2 => '2'
  | 3 => '3'
  | 4 => '4'
  | 5 => '5'
  | 6 => '6'
  | 7 => '7'
  | 8 => '8'
  | _ => '9'

/-- Numeric value of a digit string (most significant digit first). -/
def digitsVal (ds : List Char) : Nat :=
  ds.foldl (fun a c => 10 * a + (c.toNat - 48)) 0

/-- Digit rendering with explicit fuel (structural recursion, so that the
kernel can evaluate it; the fuel is always sufficient below). -/
def natDigitsAux : Nat → Nat → List Char
  | 0, _ => []
  | fuel + 1, n =>
    if n < 10 then [digitChar n]
    else natDigitsAux fuel (n / 10) ++ [digitChar (n % 10)]

/-- Decimal digits of a natural number, as Rust's integer formatting emits
them. -/
def natDigits (n : Nat) : List Char := natDigitsAux (n + 1) n

/-- Sign-and-magnitude embedding of the `f64` values flowing through
`smart_name`: `neg` is the IEEE sign bit, `mag` the (nonnegative) magnitude.
`⟨true, 0⟩` is IEEE negative zero. -/
structure SQ where
  neg : Bool
  mag : ℚ
deriving DecidableEq

/-- The rational value denoted by an `SQ`. -/
def SQ.toRat (f : SQ) : ℚ := if f.neg then -f.mag else f.mag

/-- IEEE addition on exactly-represented values (round-to-nearest-even):
a zero sum is `-0.0` exactly when both operands are negative zeros, which
the sign rule `a.neg && b.neg` realizes for well-formed operands. -/
def SQ.add (a b : SQ) : SQ :=
  let s := a.toRat + b.toRat
  if s = 0 then ⟨a.neg && b.neg, 0⟩ else ⟨decide (s < 0), |s|⟩

/-- The Rust comparison `incr >= 0.0` (true for `-0.0`). -/
def SQ.ge0 (f : SQ) : Bool := decide (0 ≤ f.toRat)

/-- Rounding to the nearest integer (half rounds up): `⌊q + 1/2⌋`, written
with `Int.fdiv` so the kernel can evaluate it. -/
def rnd (q : ℚ) : ℤ := Int.fdiv (2 * q.num + (q.den : ℤ)) (2 * (q.den : ℤ))

/-- Rust's `format!("{:.2}", x)`: optional `-` sign (printed also for
negative zero), then the magnitude rounded to two decimal places. -/
def fmt2 (f : SQ) : List Char :=
  let n : Nat := (rnd (100 * f.mag)).toNat
  (if f.neg then ['-'] else []) ++
    natDigits (n / 100) ++ '.' :: digitChar (n / 10 % 10) :: [digitChar (n % 10)]

/-- The number part of the emitted tag: `smart_name` prepends a literal `+`
when `incr >= 0.0` and otherwise relies on the sign `{:.2}` prints. -/
def signDig (incr : SQ) : List Char :=
  if SQ.ge0 incr then '+' :: fmt2 incr else fmt2 incr

/-- The full fresh tag `__[<number>_Sec<marker>]` that `smart_name` appends
(lines 88-92 of helpers.rs). -/
def tagRender (incr : SQ) (m : Char) : List Char :=
  ['_', '_', '['] ++ signDig incr ++ ['_', 'S', 'e', 'c', m, ']']

/-- Anchored match of the regex `[+-]\d+\.\d+` at the head of `l`; returns
the parsed value (as Rust's `str::parse::<f64>` reads it) and the rest. -/
def magParse (l : List Char) : Option (SQ × List Char) :=
  match l with
  | [] => none
  | c :: r =>
    if c = '+' ∨ c = '-' then
      let ds := r.takeWhile isDig
      let r1 := r.dropWhile isDig
      if ds = [] then none
      else
        match r1 with
        | '.' :: r2 =>
          let fs := r2.takeWhile isDig
          let r3 := r2.dropWhile isDig
          if fs = [] then none
          else some (⟨c == '-', (digitsVal ds : ℚ) + (digitsVal fs : ℚ) / 10 ^ fs.length⟩, r3)
        | _ => none
    else none

/-- Anchored match of the tag regex `__\[[+-]\d+\.\d+_Sec[+-]\]` at the head
of `l` (the literal parts are spelled as equality tests to ease inversion). -/
def tagParse (l : List Char) : Option (SQ × List Char) :=
  match l with
  | a :: b :: c :: r =>
    if a = '_' ∧ b = '_' ∧ c = '[' then
      match magParse r with
      | some (v, r1) =>
        match r1 with
        | c1 :: c2 :: c3 :: c4 :: m :: c6 :: r2 =>
          if c1 = '_' ∧ c2 = 'S' ∧ c3 = 'e' ∧ c4 = 'c' ∧ c6 = ']' ∧ (m = '+' ∨ m = '-')
          then some (v, r2) else none
        | _ => none
      | none => none
    else none
  | _ => none

/-- Leftmost match of `[+-]\d+\.\d+` in `l`: the `captures`/`parse` step of
`smart_name` (lines 71-79 of helpers.rs). -/
def magSplit : List Char → Option SQ
  | [] => none
  | c :: t =>
    match magParse (c :: t) with
    | some (v, _) => some v
    | none => magSplit t

/-- Leftmost match of the tag regex in `l`, returning the prefix before the
match (the `stem`, line 81-82 of helpers.rs), the parsed magnitude and the
rest after the match.  `is_match` is the `isSome` of this scan. -/
def tagSplit : List Char → Option (List Char × SQ × List Char)
  | [] => none
  | c :: t =>
    match tagParse (c :: t) with
    | some (v, r) => some ([], v, r)
    | none =>
      match tagSplit t with
      | some (p, v, r) => some (c :: p, v, r)
      | none => none

/-- Error outcomes of the embedded functions.  `invalidPath` and
`invalidFileName` are the two `format_err!` errors of `get_paths`;
`crash` stands for a Rust panic (out-of-bounds slice or `unwrap` of
`None`). -/
inductive Err where
  | invalidPath
  | invalidFileName
  | crash
deriving DecidableEq

instance {ε α : Type} [DecidableEq ε] [DecidableEq α] : DecidableEq (Except ε α) := fun a b =>
  match a, b with
  | .error e, .error f =>
    if h : e = f then isTrue (by rw [h])
    else isFalse (by intro hh; injection hh with h2; exact h h2)
  | .ok x, .ok y =>
    if h : x = y then isTrue (by rw [h])
    else isFalse (by intro hh; injection hh with h2; exact h h2)
  | .error _, .ok _ => isFalse (by intro hh; exact Except.noConfusion hh)
  | .ok _, .error _ => isFalse (by intro hh; exact Except.noConfusion hh)

/-- `smart_name` (helpers.rs lines 59-95).  The slice
`&filename[len-4..]` panics when `len < 4`; when a tag is present the code
re-finds `[+-]\d+\.\d+` over the whole filename, unwraps, parses, adds
`seconds`, takes the stem up to the tag match, and re-renders. -/
def smart_name (filename : List Char) (seconds : SQ) (part : Bool) :
    Except Err (List Char) :=
  if filename.length < 4 then .error .crash
  else
    let extension := filename.drop (filename.length - 4)
    let marker := if part then '-' else '+'
    match tagSplit filename with
    | some (stem, _, _) =>
      match magSplit filename with
      | some prev => .ok (stem ++ tagRender (SQ.add prev seconds) marker ++ extension)
      | none => .error .crash
    | none =>
      .ok (filename.take (filename.length - 4) ++ tagRender seconds marker ++ extension)

/-- The `.srt` suffix. -/
def srtExt : List Char := ['.', 's', 'r', 't']

/-- The `.vtt` suffix. -/
def vttExt : List Char := ['.', 'v', 't', 't']

/-- `is_srt_or_vtt` (helpers.rs lines 97-103); the error text is elided. -/
def is_srt_or_vtt (input : List Char) : Except Unit Unit :=
  if srtExt.isSuffixOf input ∨ vttExt.isSuffixOf input then .ok () else .error ()

/-! ### Path model

`get_paths` uses `std::path` operations (`parent`, `file_name`, `file_stem`,
`extension`, `join`).  They are modelled on Unix path syntax following the
documented `std::path::Path` semantics: a path splits into components
(`/`-separated, empty and interior `.` segments dropped, a leading `.` kept
on relative paths), `parent` drops the last component (`none` for an empty
or root-only path), and `file_name` is the last component when it is a
normal segment. -/

/-- One path component. -/
inductive Comp where
  | root
  | curDir
  | parentDir
  | normal (s : List Char)
deriving DecidableEq

/-- Split a char list on a separator, keeping empty pieces (the semantics of
Rust's `str::split`). -/
def splitOnChar (c : Char) : List Char → List (List Char)
  | [] => [[]]
  | a :: t =>
    if a = c then [] :: splitOnChar c t
    else
      match splitOnChar c t with
      | h :: r => (a :: h) :: r
      | [] => [[a]]

/-- Classify a nonempty path segment. -/
def classifySeg (s : List Char) : Comp :=
  if s = ['.', '.'] then Comp.parentDir else Comp.normal s

/-- The components of a path. -/
def components (p : List Char) : List Comp :=
  let abs : Bool := decide (p.head? = some '/')
  let raw := (splitOnChar '/' p).filter (fun s => decide (s ≠ []))
  let body : List Comp :=
    match raw with
    | [] => []
    | s :: rest =>
      let tl := rest.filterMap (fun t => if t = ['.'] then none else some (classifySeg t))
      if s = ['.'] then (if abs then tl else Comp.curDir :: tl)
      else classifySeg s :: tl
  (if abs then [Comp.root] else []) ++ body

/-- Render one component back to text. -/
def compStr : Comp → List Char
  | Comp.root => ['/']
  | Comp.curDir => ['.']
  | Comp.parentDir => ['.', '.']
  | Comp.normal s => s

/-- Render a component list back to a path. -/
def renderComps : List Comp → List Char
  | [] => []
  | [c] => compStr c
  | Comp.root :: rest => '/' :: renderComps rest
  | c :: rest => compStr c ++ '/' :: renderComps rest

/-- `Path::parent`: the path without its final component; `none` when the
path is empty or consists only of a root. -/
def parentStr (p : List Char) : Option (List Char) :=
  match components p with
  | [] => none
  | [Comp.root] => none
  | cs => some (renderComps cs.dropLast)

/-- `Path::file_name`: the final component when it is a normal segment. -/
def fileName (p : List Char) : Option (List Char) :=
  match (components p).getLast? with
  | some (Comp.normal s) => some s
  | _ => none

/-- Split a name at its last `.`: `some (before, after)`, or `none` when the
name has no dot. -/
def lastDotSplit : List Char → Option (List Char × List Char)
  | [] => none
  | c :: t =>
    match lastDotSplit t with
    | some (b, a) => some (c :: b, a)
    | none => if c = '.' then some ([], t) else none

/-- `Path::file_stem`: the file name up to its last dot; a name whose only
dot is leading (a hidden file) or that has no dot is its own stem. -/
def fileStem (p : List Char) : Option (List Char) :=
  (fileName p).map (fun name =>
    match lastDotSplit name with
    | some ([], _) => name
    | some (b, _) => b
    | none => name)

/-- `Path::extension`: the part after the last dot of the file name, when
that dot is not leading. -/
def extension (p : List Char) : Option (List Char) :=
  (fileName p).bind (fun name =>
    match lastDotSplit name with
    | some ([], _) => none
    | some (_, a) => some a
    | none => none)

/-- Whether a path is absolute. -/
def isAbs (p : List Char) : Bool := decide (p.head? = some '/')

/-- `Path::join`: replace on an absolute operand, otherwise append with a
separator (none added after an empty or `/`-terminated base). -/
def pathJoin (a b : List Char) : List Char :=
  if isAbs b then b
  else if a = [] then b
  else if a.getLast? = some '/' then a ++ b
  else a ++ '/' :: b

/-- `name.rsplitn(2, '.').nth(1)` (helpers.rs lines 32-35): the name up to
its last dot, `none` when it has no dot. -/
def dropLastExt (name : List Char) : Option (List Char) :=
  (lastDotSplit name).map (fun q => q.1)

/-- The literal `"__[Original]."` inserted for the backup path. -/
def origMarker : List Char :=
  ['_', '_', '[', 'O', 'r', 'i', 'g', 'i', 'n', 'a', 'l', ']', '.']

/-- `get_paths` (helpers.rs lines 8-55): explicit output short-circuits;
otherwise parent and file name are resolved (each failure its own
`format_err!`), the extension is swapped when a conversion is requested
(`unwrap` panics on a dotless name), `smart_name` builds the output name,
and with `copy_opt` a `<stem>__[Original].<ext>` backup path is added
(`unwrap` panics when stem or extension is missing). -/
def get_paths (input : List Char) (seconds : SQ) (part : Bool)
    (output_opt : Option (List Char)) (convert_opt : Option (List Char))
    (copy_opt : Option Unit) :
    Except Err (List Char × List Char × Option (List Char)) :=
  match output_opt with
  | some file => .ok (input, file, none)
  | none =>
    match parentStr input with
    | none => .error .invalidPath
    | some parent =>
      match fileName input with
      | none => .error .invalidFileName
      | some name =>
        let conv : Except Err (List Char) :=
          match convert_opt with
          | some toExt =>
            match dropLastExt name with
            | some base => .ok (base ++ '.' :: toExt)
            | none => .error .crash
          | none => .ok name
        match conv with
        | .error e => .error e
        | .ok outFile0 =>
          match smart_name outFile0 seconds part with
          | .error e => .error e
          | .ok outFile =>
            let output_path := pathJoin parent outFile
            match copy_opt with
            | some _ =>
              match fileStem input, extension input with
              | some st, some ex =>
                .ok (input, output_path, some (pathJoin parent (st ++ origMarker ++ ex)))
              | _, _ => .error .crash
            | none => .ok (input, output_path, none)

/-! ### Timing validator

`is_timing` splits on `:` from the right and tries `str::parse::<f64>` on
every piece.  The recognizer `isF64B` follows the grammar documented for
`f64::from_str`: an optional sign, then `inf` / `infinity` / `nan`
(case-insensitive) or a decimal number with optional fraction and
exponent. -/

/-- Lower-case an ASCII letter. -/
def toLowerAscii (c : Char) : Char :=
  if 65 ≤ c.toNat ∧ c.toNat ≤ 90 then Char.ofNat (c.toNat + 32) else c

/-- The case-insensitive special float words. -/
def isSpecialFloat (t : List Char) : Bool :=
  let l := t.map toLowerAscii
  l == ['i', 'n', 'f'] || l == ['i', 'n', 'f', 'i', 'n', 'i', 't', 'y'] ||
    l == ['n', 'a', 'n']

/-- An optional exponent suffix: empty, or `e`/`E`, optional sign, one or
more digits and nothing else. -/
def expOk : List Char → Bool
  | [] => true
  | e :: r =>
    if e = 'e' ∨ e = 'E' then
      let r' := match r with
        | c :: t => if c = '+' ∨ c = '-' then t else c :: t
        | [] => []
      decide (r' ≠ []) && r'.all isDig
    else false

/-- An unsigned decimal number: `digits ['.' digits?] exp?` or
`'.' digits exp?`. -/
def isNumber (t : List Char) : Bool :=
  let ds := t.takeWhile isDig
  let r1 := t.dropWhile isDig
  if ds = [] then
    match r1 with
    | '.' :: r2 =>
      let fs := r2.takeWhile isDig
      let r3 := r2.dropWhile isDig
      decide (fs ≠ []) && expOk r3
    | _ => false
  else
    match r1 with
    | [] => true
    | '.' :: r2 => expOk (r2.dropWhile isDig)
    | _ => expOk r1

/-- Whether `str::parse::<f64>` succeeds on `s`. -/
def isF64B (s : List Char) : Bool :=
  let t := match s with
    | c :: r => if c = '+' ∨ c = '-' then r else c :: r
    | [] => []
  isSpecialFloat t || isNumber t

/-- `time_string.rsplit(":")`: pieces from right to left, empties kept. -/
def rsplitColon (s : List Char) : List (List Char) := (splitOnChar ':' s).reverse

/-- `t.parse::<f64>()` with the value discarded (the code only collects). -/
def parseF64 (s : List Char) : Option Unit := if isF64B s then some () else none

/-- `collect::<Result<Vec<_>, _>>` over the mapped pieces. -/
def sequenceOpt : List (Option Unit) → Option (List Unit)
  | [] => some []
  | o :: t =>
    match o with
    | none => none
    | some a =>
      match sequenceOpt t with
      | some r => some (a :: r)
      | none => none

/-- `is_timing` (helpers.rs lines 115-128); the error text is elided. -/
def is_timing (time_string : List Char) : Except Unit Unit :=
  match sequenceOpt ((rsplitColon time_string).map parseF64) with
  | some _ => .ok ()
  | none => .error ()

/-! ### Claim-side definitions

These follow the spec's words (not the code) and are only compared with the
embedded code. -/

/-- Anchored spec-side tag test: `__[`, explicit sign, digits, `.`, exactly
two decimal digits, `_Sec`, marker, `]` (the emitted-tag format of §4.5). -/
def tag2At (l : List Char) : Bool :=
  match l with
  | '_' :: '_' :: '[' :: s :: r =>
    if s = '+' ∨ s = '-' then
      let ds := r.takeWhile isDig
      let r1 := r.dropWhile isDig
      decide (ds ≠ []) &&
        (match r1 with
         | '.' :: u :: v :: '_' :: 'S' :: 'e' :: 'c' :: m :: ']' :: _ =>
           isDig u && isDig v && decide (m = '+' ∨ m = '-')
         | _ => false)
    else false
  | _ => false

/-- Spec-side scan: some substring is a well-formed emitted tag. -/
def specTagScan : List Char → Bool
  | [] => false
  | c :: t => tag2At (c :: t) || specTagScan t

/-- The claim's reading of the timing grammar: at most three colon-separated
components, each a nonempty digit string (`hh:mm:ss`, `mm:ss` or `ss`). -/
def claimTiming (s : List Char) : Bool :=
  let ps := splitOnChar ':' s
  decide (ps.length ≤ 3) && ps.all (fun p => decide (p ≠ []) && p.all isDig)

/-! ### Auxiliary decidable predicates used in hypotheses -/

/-- No suffix of `l` starts with a `[+-]\d+\.\d+` match. -/
def noMagB : List Char → Bool
  | [] => true
  | c :: t => (magParse (c :: t)).isNone && noMagB t

/-- The number of positions of `l` at which the tag regex matches. -/
def tagCount : List Char → Nat
  | [] => 0
  | c :: t => (if (tagParse (c :: t)).isSome then 1 else 0) + tagCount t

/-! ### Digit lemmas -/

theorem digitChar_spec : ∀ d < 10, isDig (digitChar d) = true ∧ (digitChar d).toNat - 48 = d := by
  decide

theorem natDigitsAux_irrel :
    ∀ n f1 f2, n < f1 → n < f2 → natDigitsAux f1 n = natDigitsAux f2 n := by
  intro n
  induction n using Nat.strong_induction_on with
  | _ n ih =>
    intro f1 f2 h1 h2
    cases f1 with
    | zero => omega
    | succ g1 =>
      cases f2 with
      | zero => omega
      | succ g2 =>
        simp only [natDigitsAux]
        split
        · rfl
        · next h =>
          have hd : n / 10 < n := Nat.div_lt_self (by omega) (by omega)
          rw [ih (n / 10) hd g1 g2 (by omega) (by omega)]

theorem natDigits_eq (n : Nat) :
    natDigits n = if n < 10 then [digitChar n] else natDigits (n / 10) ++ [digitChar (n % 10)] := by
  unfold natDigits
  rw [show natDigitsAux (n + 1) n =
      if n < 10 then [digitChar n] else natDigitsAux n (n / 10) ++ [digitChar (n % 10)] from rfl]
  split
  · rfl
  · next h =>
    have hd : n / 10 < n := Nat.div_lt_self (by omega) (by omega)
    rw [natDigitsAux_irrel (n / 10) n (n / 10 + 1) hd (by omega)]

theorem natDigits_ne_nil (n : Nat) : natDigits n ≠ [] := by
  rw [natDigits_eq]
  split
  · simp
  · simp

theorem natDigits_all_dig (n : Nat) : (natDigits n).all isDig = true := by
  induction n using Nat.strong_induction_on with
  | _ n ih =>
    rw [natDigits_eq]
    split
    · next h => simp [List.all_cons, (digitChar_spec n h).1]
    · next h =>
      rw [List.all_append]
      have h1 := ih (n / 10) (Nat.div_lt_self (by omega) (by omega))
      have h2 := (digitChar_spec (n % 10) (Nat.mod_lt n (by omega))).1
      simp [h1, h2]

theorem digitsVal_append_single (a : List Char) (c : Char) :
    digitsVal (a ++ [c]) = 10 * digitsVal a + (c.toNat - 48) := by
  simp [digitsVal, List.foldl_append]

theorem digitsVal_natDigits (n : Nat) : digitsVal (natDigits n) = n := by
  induction n using Nat.strong_induction_on with
  | _ n ih =>
    rw [natDigits_eq]
    split
    · next h =>
      simp [digitsVal, (digitChar_spec n h).2]
    · next h =>
      rw [digitsVal_append_single, ih (n / 10) (Nat.div_lt_self (by omega) (by omega)),
        (digitChar_spec (n % 10) (Nat.mod_lt n (by omega))).2]
      omega

/-! ### takeWhile / dropWhile lemmas -/

theorem takeWhile_append_not {p : Char → Bool} {c : Char} (hc : p c = false)
    (u w : List Char) : (u ++ c :: w).takeWhile p = u.takeWhile p := by
  induction u with
  | nil => simp [List.takeWhile_cons, hc]
  | cons a t ih =>
    simp only [List.cons_append, List.takeWhile_cons]
    split <;> simp [ih]

theorem dropWhile_append_not {p : Char → Bool} {c : Char} (hc : p c = false)
    (u w : List Char) : (u ++ c :: w).dropWhile p = u.dropWhile p ++ c :: w := by
  induction u with
  | nil => simp [List.dropWhile_cons, hc]
  | cons a t ih =>
    simp only [List.cons_append, List.dropWhile_cons]
    split <;> simp [ih]

theorem takeWhile_of_all {p : Char → Bool} {u : List Char} (h : u.all p = true) :
    u.takeWhile p = u := by
  induction u with
  | nil => rfl
  | cons a t ih =>
    simp only [List.all_cons, Bool.and_eq_true] at h
    simp [List.takeWhile_cons, h.1, ih h.2]

theorem dropWhile_of_all {p : Char → Bool} {u : List Char} (h : u.all p = true) :
    u.dropWhile p = [] := by
  induction u with
  | nil => rfl
  | cons a t ih =>
    simp only [List.all_cons, Bool.and_eq_true] at h
    simp [List.dropWhile_cons, h.1, ih h.2]

theorem takeWhile_digits {ds : List Char} (h : ds.all isDig = true) {c : Char}
    (hc : isDig c = false) (w : List Char) : (ds ++ c :: w).takeWhile isDig = ds := by
  rw [takeWhile_append_not hc, takeWhile_of_all h]

theorem dropWhile_digits {ds : List Char} (h : ds.all isDig = true) {c : Char}
    (hc : isDig c = false) (w : List Char) : (ds ++ c :: w).dropWhile isDig = c :: w := by
  rw [dropWhile_append_not hc, dropWhile_of_all h, List.nil_append]

/-! ### magParse lemmas -/

theorem magParse_cons (c : Char) (r : List Char) :
    magParse (c :: r) =
      if c = '+' ∨ c = '-' then
        if r.takeWhile isDig = [] then none
        else
          match r.dropWhile isDig with
          | '.' :: r2 =>
            if r2.takeWhile isDig = [] then none
            else some (⟨c == '-', (digitsVal (r.takeWhile isDig) : ℚ) +
                (digitsVal (r2.takeWhile isDig) : ℚ) / 10 ^ (r2.takeWhile isDig).length⟩,
              r2.dropWhile isDig)
          | _ => none
      else none := rfl

theorem magParse_render {s : Char} (hs : s = '+' ∨ s = '-') {ds fs : List Char}
    (hds : ds ≠ []) (hdsd : ds.all isDig = true) (hfs : fs ≠ []) (hfsd : fs.all isDig = true)
    {c : Char} (hc : isDig c = false) (w : List Char) :
    magParse (s :: (ds ++ '.' :: (fs ++ c :: w))) =
      some (⟨s == '-', (digitsVal ds : ℚ) + (digitsVal fs : ℚ) / 10 ^ fs.length⟩, c :: w) := by
  rw [magParse_cons, if_pos hs, takeWhile_digits hdsd (by decide), dropWhile_digits hdsd (by decide),
    if_neg hds]
  simp only
  rw [takeWhile_digits hfsd hc, dropWhile_digits hfsd hc, if_neg hfs]

theorem magParse_nil : magParse [] = none := rfl

theorem magParse_not_sign {c : Char} (hc : ¬(c = '+' ∨ c = '-')) (t : List Char) :
    magParse (c :: t) = none := by
  rw [magParse_cons, if_neg hc]

theorem magParse_straddle {u w : List Char} {v : SQ} {r : List Char}
    (h : magParse (u ++ '_' :: w) = some (v, r)) :
    ∃ r', magParse u = some (v, r') := by
  cases u with
  | nil =>
    rw [List.nil_append, magParse_cons] at h
    simp at h
  | cons c t =>
    rw [List.cons_append, magParse_cons] at h
    rw [magParse_cons]
    by_cases hc : c = '+' ∨ c = '-'
    case neg => rw [if_neg hc] at h; exact absurd h (by simp)
    rw [if_pos hc] at h ⊢
    rw [takeWhile_append_not (by decide : isDig '_' = false)] at h
    rw [dropWhile_append_not (by decide : isDig '_' = false)] at h
    by_cases hds : t.takeWhile isDig = []
    case pos => rw [if_pos hds] at h; exact absurd h (by simp)
    rw [if_neg hds] at h ⊢
    cases hd : t.dropWhile isDig with
    | nil =>
      rw [hd, List.nil_append] at h
      simp at h
    | cons d dt =>
      rw [hd, List.cons_append] at h
      split at h
      · next r2 heq =>
        obtain ⟨rfl, rfl⟩ : d = '.' ∧ r2 = dt ++ '_' :: w := by
          rw [List.cons.injEq] at heq
          exact ⟨heq.1, heq.2.symm⟩
        rw [takeWhile_append_not (by decide : isDig '_' = false)] at h
        rw [dropWhile_append_not (by decide : isDig '_' = false)] at h
        by_cases hfs : dt.takeWhile isDig = []
        case pos => rw [if_pos hfs] at h; exact absurd h (by simp)
        rw [if_neg hfs] at h
        rw [Option.some.injEq, Prod.mk.injEq] at h
        refine ⟨dt.dropWhile isDig, ?_⟩
        simp only
        rw [if_neg hfs, h.1]
      · exact absurd h (by simp)

/-! ### tagParse lemmas -/

theorem tagParse_cons3 (X : List Char) :
    tagParse ('_' :: '_' :: '[' :: X) =
      match magParse X with
      | some (v, r1) =>
        match r1 with
        | c1 :: c2 :: c3 :: c4 :: m :: c6 :: r2 =>
          if c1 = '_' ∧ c2 = 'S' ∧ c3 = 'e' ∧ c4 = 'c' ∧ c6 = ']' ∧ (m = '+' ∨ m = '-')
          then some (v, r2) else none
        | _ => none
      | none => none := rfl

theorem tagParse_inv {l : List Char} {v : SQ} {r : List Char} (h : tagParse l = some (v, r)) :
    ∃ w m, l = '_' :: '_' :: '[' :: w ∧
      magParse w = some (v, '_' :: 'S' :: 'e' :: 'c' :: m :: ']' :: r) ∧ (m = '+' ∨ m = '-') := by
  rw [tagParse.eq_def] at h
  split at h
  · next a b c w =>
    split at h
    · next habc =>
      obtain ⟨rfl, rfl, rfl⟩ := habc
      cases hmp : magParse w with
      | none => rw [hmp] at h; exact Option.noConfusion h
      | some q =>
        obtain ⟨v', r1⟩ := q
        rw [hmp] at h
        rcases r1 with _ | ⟨c1, _ | ⟨c2, _ | ⟨c3, _ | ⟨c4, _ | ⟨m, _ | ⟨c6, r2⟩⟩⟩⟩⟩⟩
        · exact Option.noConfusion h
        · exact Option.noConfusion h
        · exact Option.noConfusion h
        · exact Option.noConfusion h
        · exact Option.noConfusion h
        · exact Option.noConfusion h
        · have h2 : (if c1 = '_' ∧ c2 = 'S' ∧ c3 = 'e' ∧ c4 = 'c' ∧ c6 = ']' ∧ (m = '+' ∨ m = '-')
              then some (v', r2) else none) = some (v, r) := h
          by_cases hcond : c1 = '_' ∧ c2 = 'S' ∧ c3 = 'e' ∧ c4 = 'c' ∧ c6 = ']' ∧ (m = '+' ∨ m = '-')
          · rw [if_pos hcond] at h2
            rw [Option.some.injEq, Prod.mk.injEq] at h2
            obtain ⟨rfl, rfl, rfl, rfl, rfl, hm⟩ := hcond
            refine ⟨w, m, rfl, ?_, hm⟩
            rw [hmp, h2.1, h2.2]
          · rw [if_neg hcond] at h2
            exact Option.noConfusion h2
    · exact Option.noConfusion h
  · exact Option.noConfusion h

theorem tagParse_none_head {c : Char} {t : List Char} (hc : c ≠ '_') :
    tagParse (c :: t) = none := by
  cases h : tagParse (c :: t) with
  | none => rfl
  | some q =>
    obtain ⟨v, r⟩ := q
    obtain ⟨w, m, heq, -, -⟩ := tagParse_inv h
    rw [List.cons.injEq] at heq
    exact absurd heq.1 hc

theorem tagParse_none_second {c₁ c₂ : Char} {t : List Char} (hc : c₂ ≠ '_') :
    tagParse (c₁ :: c₂ :: t) = none := by
  cases h : tagParse (c₁ :: c₂ :: t) with
  | none => rfl
  | some q =>
    obtain ⟨v, r⟩ := q
    obtain ⟨w, m, heq, -, -⟩ := tagParse_inv h
    rw [List.cons.injEq, List.cons.injEq] at heq
    exact absurd heq.2.1 hc

theorem tagParse_none_third {c₁ c₂ c₃ : Char} {t : List Char} (hc : c₃ ≠ '[') :
    tagParse (c₁ :: c₂ :: c₃ :: t) = none := by
  cases h : tagParse (c₁ :: c₂ :: c₃ :: t) with
  | none => rfl
  | some q =>
    obtain ⟨v, r⟩ := q
    obtain ⟨w, m, heq, -, -⟩ := tagParse_inv h
    rw [List.cons.injEq, List.cons.injEq, List.cons.injEq] at heq
    exact absurd heq.2.2.1 hc

/-! ### Scanning lemmas for magSplit / tagSplit / noMagB -/

theorem noMagB_cons {c : Char} {t : List Char} :
    noMagB (c :: t) = true ↔ magParse (c :: t) = none ∧ noMagB t = true := by
  simp [noMagB, Option.isNone_iff_eq_none]

theorem magParse_of_suffix_noMag {l : List Char} (h : noMagB l = true) :
    ∀ s : List Char, s <:+ l → magParse s = none := by
  induction l with
  | nil =>
    intro s hs
    obtain ⟨u, hu⟩ := hs
    rw [List.append_eq_nil] at hu
    rw [hu.2, magParse_nil]
  | cons c t ih =>
    intro s hs
    obtain ⟨u, hu⟩ := hs
    cases u with
    | nil =>
      rw [List.nil_append] at hu
      rw [hu]
      exact (noMagB_cons.mp h).1
    | cons a u' =>
      rw [List.cons_append, List.cons.injEq] at hu
      exact ih (noMagB_cons.mp h).2 s ⟨u', hu.2⟩

theorem magSplit_cons_none {c : Char} {t : List Char} (h : magParse (c :: t) = none) :
    magSplit (c :: t) = magSplit t := by
  simp [magSplit, h]

theorem magSplit_cons_some {c : Char} {t : List Char} {v : SQ} {r : List Char}
    (h : magParse (c :: t) = some (v, r)) : magSplit (c :: t) = some v := by
  simp [magSplit, h]

theorem tagSplit_cons_none {c : Char} {t : List Char} (h : tagParse (c :: t) = none) :
    tagSplit (c :: t) =
      match tagSplit t with
      | some (p, v, r) => some (c :: p, v, r)
      | none => none := by
  simp [tagSplit, h]

theorem tagSplit_cons_some {c : Char} {t : List Char} {v : SQ} {r : List Char}
    (h : tagParse (c :: t) = some (v, r)) : tagSplit (c :: t) = some ([], v, r) := by
  simp [tagSplit, h]

theorem tagParse_append_none {p : List Char} (hp : p ≠ []) (hnm : noMagB p = true)
    (w : List Char) : tagParse (p ++ '_' :: '_' :: '[' :: w) = none := by
  cases hres : tagParse (p ++ '_' :: '_' :: '[' :: w) with
  | none => rfl
  | some q =>
    obtain ⟨v, r⟩ := q
    obtain ⟨w', m, heq, hmag, -⟩ := tagParse_inv hres
    exfalso
    match p, hp with
    | [a], _ =>
      rw [List.cons_append, List.nil_append, List.cons.injEq, List.cons.injEq,
        List.cons.injEq] at heq
      exact absurd heq.2.2.1 (by decide)
    | [a, b], _ =>
      rw [List.cons_append, List.cons_append, List.nil_append, List.cons.injEq,
        List.cons.injEq, List.cons.injEq] at heq
      exact absurd heq.2.2.1 (by decide)
    | a :: b :: c :: p4, _ =>
      rw [List.cons_append, List.cons_append, List.cons_append, List.cons.injEq,
        List.cons.injEq, List.cons.injEq] at heq
      have hmag4 : magParse (p4 ++ '_' :: ('_' :: '[' :: w)) = some (v, '_' :: 'S' :: 'e' :: 'c' :: m :: ']' :: r) := by
        rw [← heq.2.2.2] at hmag
        exact hmag
      obtain ⟨r', hr'⟩ := magParse_straddle hmag4
      have h4 : magParse p4 = none :=
        magParse_of_suffix_noMag hnm p4 ⟨[a, b, c], rfl⟩
      rw [h4] at hr'
      exact absurd hr' (by simp)

theorem tagSplit_pre {pre : List Char} (hnm : noMagB pre = true) {w : List Char} {v : SQ}
    {r : List Char} (hQ : tagParse ('_' :: '_' :: '[' :: w) = some (v, r)) :
    tagSplit (pre ++ '_' :: '_' :: '[' :: w) = some (pre, v, r) := by
  induction pre with
  | nil =>
    rw [List.nil_append]
    exact tagSplit_cons_some hQ
  | cons c t ih =>
    have hnone : tagParse ((c :: t) ++ '_' :: '_' :: '[' :: w) = none :=
      tagParse_append_none (by simp) hnm w
    rw [List.cons_append] at hnone
    rw [List.cons_append, tagSplit_cons_none hnone, ih (noMagB_cons.mp hnm).2]

theorem magSplit_append {pre : List Char} (hnm : noMagB pre = true) (w : List Char) :
    magSplit (pre ++ '_' :: w) = magSplit ('_' :: w) := by
  induction pre with
  | nil => rw [List.nil_append]
  | cons c t ih =>
    have hnone : magParse ((c :: t) ++ '_' :: w) = none := by
      cases hres : magParse ((c :: t) ++ '_' :: w) with
      | none => rfl
      | some q =>
        obtain ⟨v, r⟩ := q
        obtain ⟨r', hr'⟩ := magParse_straddle hres
        rw [(noMagB_cons.mp hnm).1] at hr'
        exact absurd hr' (by simp)
    rw [List.cons_append] at hnone
    rw [List.cons_append, magSplit_cons_none hnone, ih (noMagB_cons.mp hnm).2]

theorem magSplit_tag {s : Char} (hs : s = '+' ∨ s = '-') {ds fs : List Char}
    (hds : ds ≠ []) (hdsd : ds.all isDig = true) (hfs : fs ≠ []) (hfsd : fs.all isDig = true)
    {c : Char} (hc : isDig c = false) (w : List Char) :
    magSplit ('_' :: '_' :: '[' :: s :: (ds ++ '.' :: (fs ++ c :: w))) =
      some ⟨s == '-', (digitsVal ds : ℚ) + (digitsVal fs : ℚ) / 10 ^ fs.length⟩ := by
  rw [magSplit_cons_none (magParse_not_sign (by decide) _)]
  rw [magSplit_cons_none (magParse_not_sign (by decide) _)]
  rw [magSplit_cons_none (magParse_not_sign (by decide) _)]
  exact magSplit_cons_some (magParse_render hs hds hdsd hfs hfsd hc w)

/-! ### Render lemmas: parsing the tag `smart_name` emits -/

/-- The two-decimal rounding `{:.2}` applies to a magnitude, in centiunits. -/
def rdN (q : ℚ) : Nat := (rnd (100 * q)).toNat

/-- A value is not IEEE negative zero. -/
def notNegZero (f : SQ) : Prop := ¬(f.neg = true ∧ f.mag = 0)

instance (f : SQ) : Decidable (notNegZero f) := by
  unfold notNegZero
  infer_instance

theorem signDig_eq {incr : SQ} (h0 : 0 ≤ incr.mag) (hnz : notNegZero incr) :
    ∃ s, (s = '+' ∨ s = '-') ∧ (s == '-') = incr.neg ∧
      signDig incr = s :: (natDigits (rdN incr.mag / 100) ++ '.' ::
        [digitChar (rdN incr.mag / 10 % 10), digitChar (rdN incr.mag % 10)]) := by
  by_cases hn : incr.neg = true
  · have hm : 0 < incr.mag := by
      rcases lt_or_eq_of_le h0 with h | h
      · exact h
      · exact absurd ⟨hn, h.symm⟩ hnz
    have hlt : ¬(0 : ℚ) ≤ -incr.mag := by linarith
    have hge : SQ.ge0 incr = false := by
      simp only [SQ.ge0, SQ.toRat, hn, if_true, decide_eq_false_iff_not]
      exact hlt
    refine ⟨'-', Or.inr rfl, by simp [hn], ?_⟩
    simp [signDig, hge, fmt2, hn, rdN]
  · have hn' : incr.neg = false := by
      cases hne : incr.neg
      · rfl
      · exact absurd hne hn
    have hge : SQ.ge0 incr = true := by
      have htr : SQ.toRat incr = incr.mag := by simp [SQ.toRat, hn']
      simp [SQ.ge0, htr, h0]
    refine ⟨'+', Or.inl rfl, by simp [hn'], ?_⟩
    simp [signDig, hge, fmt2, hn', rdN]

theorem digitsVal_two (a b : Nat) (ha : a < 10) (hb : b < 10) :
    digitsVal [digitChar a, digitChar b] = 10 * a + b := by
  have h1 := (digitChar_spec a ha).2
  have h2 := (digitChar_spec b hb).2
  simp only [digitsVal, List.foldl]
  omega

theorem parsed_val (n : Nat) :
    (digitsVal (natDigits (n / 100)) : ℚ) +
      (digitsVal [digitChar (n / 10 % 10), digitChar (n % 10)] : ℚ) /
        10 ^ ([digitChar (n / 10 % 10), digitChar (n % 10)] : List Char).length =
      (n : ℚ) / 100 := by
  rw [digitsVal_natDigits, digitsVal_two _ _ (by omega) (by omega)]
  have hv : 10 * (n / 10 % 10) + n % 10 = n % 100 := by omega
  rw [hv]
  have hlen : ([digitChar (n / 10 % 10), digitChar (n % 10)] : List Char).length = 2 := rfl
  rw [hlen]
  have h100 : ((10 : ℚ) ^ 2) = 100 := by norm_num
  rw [h100]
  field_simp
  exact_mod_cast (by omega : n / 100 * 100 + n % 100 = n)

theorem tagParse_of_magParse {X : List Char} {v : SQ} {m : Char} {rest : List Char}
    (hmp : magParse X = some (v, '_' :: 'S' :: 'e' :: 'c' :: m :: ']' :: rest))
    (hm : m = '+' ∨ m = '-') :
    tagParse ('_' :: '_' :: '[' :: X) = some (v, rest) := by
  rw [tagParse_cons3, hmp]
  rcases hm with rfl | rfl <;> simp

theorem tagParse_render {incr : SQ} (h0 : 0 ≤ incr.mag) (hnz : notNegZero incr)
    {m : Char} (hm : m = '+' ∨ m = '-') (rest : List Char) :
    tagParse (tagRender incr m ++ rest) = some (⟨incr.neg, (rdN incr.mag : ℚ) / 100⟩, rest) := by
  obtain ⟨s, hs, hsneg, hsig⟩ := signDig_eq h0 hnz
  have hshape : tagRender incr m ++ rest =
      '_' :: '_' :: '[' :: (s :: (natDigits (rdN incr.mag / 100) ++ '.' ::
        ([digitChar (rdN incr.mag / 10 % 10), digitChar (rdN incr.mag % 10)] ++
          '_' :: ('S' :: 'e' :: 'c' :: m :: ']' :: rest)))) := by
    simp [tagRender, hsig]
  rw [hshape]
  refine tagParse_of_magParse ?_ hm
  rw [magParse_render hs (natDigits_ne_nil _) (natDigits_all_dig _) (by simp) (by
      simp only [List.all_cons, List.all_nil, Bool.and_eq_true]
      exact ⟨(digitChar_spec _ (by omega)).1, (digitChar_spec _ (by omega)).1, trivial⟩)
    (by decide) _]
  rw [Option.some.injEq, Prod.mk.injEq]
  refine ⟨?_, rfl⟩
  rw [SQ.mk.injEq]
  exact ⟨hsneg, parsed_val (rdN incr.mag)⟩

/-! ### tagSplit inversion and totality of smart_name -/

theorem tagSplit_inv {l st : List Char} {v : SQ} {r : List Char}
    (h : tagSplit l = some (st, v, r)) :
    ∃ w m, ('_' :: '_' :: '[' :: w) <:+ l ∧
      magParse w = some (v, '_' :: 'S' :: 'e' :: 'c' :: m :: ']' :: r) := by
  induction l generalizing st v r with
  | nil => exact absurd h (by simp [tagSplit])
  | cons c t ih =>
    cases hp : tagParse (c :: t) with
    | some q =>
      obtain ⟨v', r'⟩ := q
      rw [tagSplit_cons_some hp, Option.some.injEq, Prod.mk.injEq, Prod.mk.injEq] at h
      obtain ⟨-, rfl, rfl⟩ := h
      obtain ⟨w, m, heq, hmag, -⟩ := tagParse_inv hp
      exact ⟨w, m, ⟨[], by rw [List.nil_append, heq]⟩, hmag⟩
    | none =>
      rw [tagSplit_cons_none hp] at h
      cases hts : tagSplit t with
      | none => rw [hts] at h; exact Option.noConfusion h
      | some q2 =>
        obtain ⟨p2, v2, r2⟩ := q2
        rw [hts, Option.some.injEq, Prod.mk.injEq, Prod.mk.injEq] at h
        obtain ⟨-, rfl, rfl⟩ := h
        obtain ⟨w, m, ⟨u, hu⟩, hmag⟩ := ih hts
        exact ⟨w, m, ⟨c :: u, by rw [List.cons_append, hu]⟩, hmag⟩

theorem magParse_some_ne_nil {l : List Char} {v : SQ} {r : List Char}
    (h : magParse l = some (v, r)) : l ≠ [] := by
  intro e
  rw [e, magParse_nil] at h
  exact Option.noConfusion h

theorem tagSplit_length {l st : List Char} {v : SQ} {r : List Char}
    (h : tagSplit l = some (st, v, r)) : 4 ≤ l.length := by
  obtain ⟨w, m, ⟨u, hu⟩, hmag⟩ := tagSplit_inv h
  have hw : w ≠ [] := magParse_some_ne_nil hmag
  have hlen := congrArg List.length hu
  simp only [List.length_append, List.length_cons] at hlen
  have : 1 ≤ w.length := List.length_pos.mpr hw
  omega

theorem magSplit_isSome_of_suffix {l u : List Char} (hs : u <:+ l)
    (h : (magParse u).isSome = true) : (magSplit l).isSome = true := by
  induction l with
  | nil =>
    obtain ⟨t, ht⟩ := hs
    rw [List.append_eq_nil] at ht
    rw [ht.2, magParse_nil] at h
    exact Bool.noConfusion h
  | cons c t ih =>
    cases hp : magParse (c :: t) with
    | some q =>
      obtain ⟨v, r⟩ := q
      rw [magSplit_cons_some hp]
      rfl
    | none =>
      rw [magSplit_cons_none hp]
      obtain ⟨pu, hpu⟩ := hs
      cases pu with
      | nil =>
        rw [List.nil_append] at hpu
        rw [hpu, hp] at h
        exact Bool.noConfusion h
      | cons a pu' =>
        rw [List.cons_append, List.cons.injEq] at hpu
        exact ih ⟨pu', hpu.2⟩

theorem magSplit_of_tagSplit {l st : List Char} {v : SQ} {r : List Char}
    (h : tagSplit l = some (st, v, r)) : (magSplit l).isSome = true := by
  obtain ⟨w, m, ⟨u, hu⟩, hmag⟩ := tagSplit_inv h
  refine magSplit_isSome_of_suffix ⟨u ++ ['_', '_', '['], ?_⟩ (by rw [hmag]; rfl)
  rw [List.append_assoc]
  exact hu

theorem smart_name_eq_fresh {f : List Char} (h4 : 4 ≤ f.length) (ht : tagSplit f = none)
    (sec : SQ) (p : Bool) :
    smart_name f sec p = .ok (f.take (f.length - 4) ++
      tagRender sec (if p then '-' else '+') ++ f.drop (f.length - 4)) := by
  unfold smart_name
  rw [if_neg (by omega : ¬f.length < 4), ht]

theorem smart_name_eq_tagged {f : List Char} (h4 : 4 ≤ f.length) {st : List Char} {v : SQ}
    {r : List Char} (ht : tagSplit f = some (st, v, r)) {w : SQ} (hms : magSplit f = some w)
    (sec : SQ) (p : Bool) :
    smart_name f sec p = .ok (st ++ tagRender (SQ.add w sec) (if p then '-' else '+') ++
      f.drop (f.length - 4)) := by
  unfold smart_name
  rw [if_neg (by omega : ¬f.length < 4), ht, hms]

theorem smart_name_total {f : List Char} (h4 : 4 ≤ f.length) (sec : SQ) (p : Bool) :
    ∃ o, smart_name f sec p = .ok o := by
  cases ht : tagSplit f with
  | none => exact ⟨_, smart_name_eq_fresh h4 ht sec p⟩
  | some q =>
    obtain ⟨st, v, r⟩ := q
    obtain ⟨w, hw⟩ := Option.isSome_iff_exists.mp (magSplit_of_tagSplit ht)
    exact ⟨_, smart_name_eq_tagged h4 ht hw sec p⟩

/-! ### SQ arithmetic lemmas -/

theorem SQ.add_mag_nonneg (a b : SQ) : 0 ≤ (SQ.add a b).mag := by
  unfold SQ.add
  dsimp only
  split
  · exact le_refl 0
  · exact abs_nonneg _

theorem SQ.add_notNegZero {a b : SQ} (ha : 0 ≤ a.mag) (hb : 0 ≤ b.mag)
    (hnz : notNegZero b) : notNegZero (SQ.add a b) := by
  unfold SQ.add notNegZero
  dsimp only
  split
  · next hs =>
    rintro ⟨h1, -⟩
    rw [Bool.and_eq_true] at h1
    have hbm : 0 < b.mag := by
      rcases lt_or_eq_of_le hb with h | h
      · exact h
      · exact absurd ⟨h1.2, h.symm⟩ hnz
    rw [SQ.toRat, SQ.toRat, if_pos h1.1, if_pos h1.2] at hs
    have : a.mag + b.mag = 0 := by linarith
    nlinarith
  · next hs =>
    rintro ⟨-, h2⟩
    exact hs (abs_eq_zero.mp h2)

theorem magParse_val_nonneg {l : List Char} {v : SQ} {r : List Char}
    (h : magParse l = some (v, r)) : 0 ≤ v.mag := by
  cases l with
  | nil => exact absurd h (by rw [magParse_nil]; simp)
  | cons c t =>
    rw [magParse_cons] at h
    split at h
    · split at h
      · exact Option.noConfusion h
      · split at h
        · next r2 heq =>
          split at h
          · exact Option.noConfusion h
          · rw [Option.some.injEq, Prod.mk.injEq] at h
            rw [← h.1]
            have h1 : (0 : ℚ) ≤ (digitsVal ((t : List Char).takeWhile isDig) : ℚ) :=
              Nat.cast_nonneg _
            have h2 : (0 : ℚ) ≤ (digitsVal ((r2 : List Char).takeWhile isDig) : ℚ) /
                10 ^ ((r2 : List Char).takeWhile isDig).length := by
              apply div_nonneg (Nat.cast_nonneg _)
              positivity
            exact add_nonneg h1 h2
        · exact Option.noConfusion h
    · exact Option.noConfusion h

theorem magSplit_val_nonneg {l : List Char} {v : SQ} (h : magSplit l = some v) :
    0 ≤ v.mag := by
  induction l with
  | nil => exact absurd h (by simp [magSplit])
  | cons c t ih =>
    cases hp : magParse (c :: t) with
    | some q =>
      obtain ⟨v', r⟩ := q
      rw [magSplit_cons_some hp, Option.some.injEq] at h
      rw [← h]
      exact magParse_val_nonneg hp
    | none =>
      rw [magSplit_cons_none hp] at h
      exact ih h

/-! ### Counting tag occurrences -/

theorem tagCount_cons (c : Char) (t : List Char) :
    tagCount (c :: t) = (if (tagParse (c :: t)).isSome then 1 else 0) + tagCount t := rfl

theorem tagCount_step {c : Char} {t : List Char} (h : tagParse (c :: t) = none) :
    tagCount (c :: t) = tagCount t := by
  rw [tagCount_cons, h]
  simp

theorem tagCount_pre {pre : List Char} (hnm : noMagB pre = true) (w : List Char) :
    tagCount (pre ++ '_' :: '_' :: '[' :: w) = tagCount ('_' :: '_' :: '[' :: w) := by
  induction pre with
  | nil => rw [List.nil_append]
  | cons c t ih =>
    have hnone := tagParse_append_none (p := c :: t) (by simp) hnm w
    rw [List.cons_append] at hnone
    rw [List.cons_append, tagCount_step hnone]
    exact ih (noMagB_cons.mp hnm).2

theorem tagCount_digits {ds : List Char} (h : ds.all isDig = true) (r : List Char) :
    tagCount (ds ++ r) = tagCount r := by
  induction ds with
  | nil => rw [List.nil_append]
  | cons c t ih =>
    rw [List.all_cons, Bool.and_eq_true] at h
    have hc : c ≠ '_' := by
      intro e
      rw [e] at h
      exact absurd h.1 (by decide)
    rw [List.cons_append, tagCount_step (tagParse_none_head hc)]
    exact ih h.2

theorem tagCount_render {incr : SQ} (h0 : 0 ≤ incr.mag) (hnz : notNegZero incr)
    {m : Char} (hm : m = '+' ∨ m = '-') {ext : List Char}
    (hext : ext = srtExt ∨ ext = vttExt) :
    tagCount (tagRender incr m ++ ext) = 1 := by
  obtain ⟨s, hs, hsneg, hsig⟩ := signDig_eq h0 hnz
  have hhead : (tagParse (tagRender incr m ++ ext)).isSome = true := by
    rw [tagParse_render h0 hnz hm ext]
    rfl
  have hshape : tagRender incr m ++ ext =
      '_' :: '_' :: '[' :: (s :: (natDigits (rdN incr.mag / 100) ++ '.' ::
        ([digitChar (rdN incr.mag / 10 % 10), digitChar (rdN incr.mag % 10)] ++
          '_' :: ('S' :: 'e' :: 'c' :: m :: ']' :: ext)))) := by
    simp [tagRender, hsig]
  rw [hshape] at hhead ⊢
  rw [tagCount_cons, hhead, if_pos rfl]
  have hsne : s ≠ '_' := by
    rcases hs with rfl | rfl <;> decide
  have hmne : m ≠ '_' := by
    rcases hm with rfl | rfl <;> decide
  rw [tagCount_step (tagParse_none_second (by decide : ('[' : Char) ≠ '_'))]
  rw [tagCount_step (tagParse_none_head (by decide : ('[' : Char) ≠ '_'))]
  rw [tagCount_step (tagParse_none_head hsne)]
  rw [tagCount_digits (natDigits_all_dig _)]
  rw [tagCount_step (tagParse_none_head (by decide : ('.' : Char) ≠ '_'))]
  rw [tagCount_digits (by
    simp only [List.all_cons, List.all_nil, Bool.and_eq_true]
    exact ⟨(digitChar_spec _ (by omega)).1, (digitChar_spec _ (by omega)).1, trivial⟩)]
  rw [tagCount_step (tagParse_none_second (by decide : ('S' : Char) ≠ '_'))]
  rw [tagCount_step (tagParse_none_head (by decide : ('S' : Char) ≠ '_'))]
  rw [tagCount_step (tagParse_none_head (by decide : ('e' : Char) ≠ '_'))]
  rw [tagCount_step (tagParse_none_head (by decide : ('c' : Char) ≠ '_'))]
  rw [tagCount_step (tagParse_none_head hmne)]
  rw [tagCount_step (tagParse_none_head (by decide : (']' : Char) ≠ '_'))]
  rcases hext with rfl | rfl <;> decide

/-! ### Auxiliary lemmas for the claims -/

theorem rnd_int (k : ℤ) : Int.fdiv (2 * k + 1) 2 = k := by
  rw [Int.fdiv_eq_ediv _ (by omega)]
  omega

theorem rdN_exact {q : ℚ} (h0 : 0 ≤ q) (hden : (100 * q).den = 1) :
    (rdN q : ℚ) = 100 * q := by
  unfold rdN rnd
  rw [hden]
  have h2 : (2 : ℤ) * ((1 : ℕ) : ℤ) = 2 := by norm_num
  have h1 : 2 * (100 * q).num + ((1 : ℕ) : ℤ) = 2 * (100 * q).num + 1 := by norm_num
  rw [h2, h1, rnd_int]
  have hq0 : (0 : ℚ) ≤ 100 * q := by positivity
  have hnum : 0 ≤ (100 * q).num := Rat.num_nonneg.mpr hq0
  have htn : (((100 * q).num.toNat : ℤ) : ℚ) = ((100 * q).num : ℚ) := by
    rw [Int.toNat_of_nonneg hnum]
  rw [show (((100 * q).num.toNat : ℕ) : ℚ) = (((100 * q).num.toNat : ℤ) : ℚ) by push_cast; ring]
  rw [htn, (Rat.den_eq_one_iff _).mp hden]

theorem isSuffixOf_length {e f : List Char} (h : e.isSuffixOf f = true) :
    e.length ≤ f.length := by
  obtain ⟨u, hu⟩ := List.isSuffixOf_iff_suffix.mp h
  have := congrArg List.length hu
  rw [List.length_append] at this
  omega

theorem all_map' {α β : Type} (f : α → β) (p : β → Bool) (l : List α) :
    (l.map f).all p = l.all (fun x => p (f x)) := by
  induction l with
  | nil => rfl
  | cons a t ih => simp [List.all_cons, ih]

theorem sequenceOpt_isSome (l : List (Option Unit)) :
    (sequenceOpt l).isSome = l.all Option.isSome := by
  induction l with
  | nil => rfl
  | cons o t ih =>
    cases o with
    | none =>
      rw [show sequenceOpt (none :: t) = none from rfl, List.all_cons]
      simp
    | some a =>
      rw [List.all_cons]
      cases hs : sequenceOpt t with
      | none =>
        rw [hs] at ih
        rw [show sequenceOpt (some a :: t) =
            (match sequenceOpt t with
             | some r => some (a :: r)
             | none => none) from rfl, hs]
        simp [← ih]
      | some r =>
        rw [hs] at ih
        rw [show sequenceOpt (some a :: t) =
            (match sequenceOpt t with
             | some r => some (a :: r)
             | none => none) from rfl, hs]
        simp [← ih]

theorem all_parse (s : List Char) :
    ((rsplitColon s).map parseF64).all Option.isSome = (splitOnChar ':' s).all isF64B := by
  rw [all_map']
  have hfun : (fun x => (parseF64 x).isSome) = isF64B := by
    funext x
    by_cases hx : isF64B x = true
    · simp [parseF64, hx]
    · rw [Bool.not_eq_true] at hx
      simp [parseF64, hx]
  rw [hfun]
  unfold rsplitColon
  rw [List.all_reverse]

/-! ### Concrete filenames used in scenarios, counterexamples and witnesses -/

/-- The filename `movie.srt`. -/
def movieSrt : List Char := ['m', 'o', 'v', 'i', 'e', '.', 's', 'r', 't']

/-- The filename `movie__[+1.50_Sec+].srt`. -/
def movieT150 : List Char :=
  ['m', 'o', 'v', 'i', 'e', '_', '_', '[', '+', '1', '.', '5', '0', '_', 'S', 'e', 'c', '+',
    ']', '.', 's', 'r', 't']

/-- The filename `movie__[+1.00_Sec-].srt`. -/
def movieT100p : List Char :=
  ['m', 'o', 'v', 'i', 'e', '_', '_', '[', '+', '1', '.', '0', '0', '_', 'S', 'e', 'c', '-',
    ']', '.', 's', 'r', 't']

/-- The filename `movie__[+0.00_Sec+].srt`. -/
def movieT000 : List Char :=
  ['m', 'o', 'v', 'i', 'e', '_', '_', '[', '+', '0', '.', '0', '0', '_', 'S', 'e', 'c', '+',
    ']', '.', 's', 'r', 't']

/-- The filename `movie__[+0.01_Sec+].srt`. -/
def movieT001 : List Char :=
  ['m', 'o', 'v', 'i', 'e', '_', '_', '[', '+', '0', '.', '0', '1', '_', 'S', 'e', 'c', '+',
    ']', '.', 's', 'r', 't']

/-- The filename `movie__[+-0.00_Sec+].srt` (malformed tag emitted at `-0.0`). -/
def movieTneg0 : List Char :=
  ['m', 'o', 'v', 'i', 'e', '_', '_', '[', '+', '-', '0', '.', '0', '0', '_', 'S', 'e', 'c',
    '+', ']', '.', 's', 'r', 't']

/-- The filename `v+1.5__[+3.00_Sec+]X.srt`: a sign-decimal substring in the
stem, and a character between the tag and the extension. -/
def c2file : List Char :=
  ['v', '+', '1', '.', '5', '_', '_', '[', '+', '3', '.', '0', '0', '_', 'S', 'e', 'c', '+',
    ']', 'X', '.', 's', 'r', 't']

/-- The filename `v+1.5__[+2.00_Sec+].srt`. -/
def c2out : List Char :=
  ['v', '+', '1', '.', '5', '_', '_', '[', '+', '2', '.', '0', '0', '_', 'S', 'e', 'c', '+',
    ']', '.', 's', 'r', 't']

/-! ### The claims -/

/-- C3: `smart_name` on `movie.srt` with offset +1.50 and the full flag
yields `movie__[+1.50_Sec+].srt`; on that output with offset −0.50 and the
partial flag it yields `movie__[+1.00_Sec-].srt`. -/
theorem c3_scenario :
    smart_name movieSrt ⟨false, 3/2⟩ false = .ok movieT150 ∧
    smart_name movieT150 ⟨true, 1/2⟩ true = .ok movieT100p := by
  with_unfolding_all decide

/-- C6: when an explicit output path is supplied, `get_paths` returns it
verbatim (with no backup path), for every input, offset, flag, conversion
and copy option; the output namer is never consulted. -/
theorem c6_explicit_output (input : List Char) (sec : SQ) (p : Bool) (out : List Char)
    (conv : Option (List Char)) (copy : Option Unit) :
    get_paths input sec p (some out) conv copy = .ok (input, out, none) := rfl

/-- C7: with no explicit output, `get_paths` fails with one of its two
invalid-path errors whenever the input has no resolvable parent or file
name, for every offset, flag, conversion and copy option. -/
theorem c7_invalid_path (input : List Char) (sec : SQ) (p : Bool)
    (conv : Option (List Char)) (copy : Option Unit)
    (h : parentStr input = none ∨ fileName input = none) :
    get_paths input sec p none conv copy = .error Err.invalidPath ∨
    get_paths input sec p none conv copy = .error Err.invalidFileName := by
  unfold get_paths
  cases hp : parentStr input with
  | none =>
    left
    rfl
  | some par =>
    rcases h with h | h
    · rw [hp] at h
      exact Option.noConfusion h
    · right
      rw [h]

/-- C7 witness: the empty input path has no parent, and `get_paths` rejects
it. -/
theorem c7_witness :
    (parentStr [] = none ∨ fileName [] = none) ∧
    (get_paths [] ⟨false, 1⟩ false none none none = .error Err.invalidPath ∨
      get_paths [] ⟨false, 1⟩ false none none none = .error Err.invalidFileName) :=
  ⟨Or.inl (by decide),
    c7_invalid_path [] ⟨false, 1⟩ false none none (Or.inl (by decide))⟩

/-- C9 counterexample: `is_timing` accepts `1:2:3:4`, which has four
colon-separated components and so is outside the claimed
`hh:mm:ss` / `mm:ss` / `ss` grammar. -/
theorem c9_counterexample :
    is_timing ['1', ':', '2', ':', '3', ':', '4'] = .ok () ∧
    claimTiming ['1', ':', '2', ':', '3', ':', '4'] = false := by decide

/-- C9 amended: `is_timing` accepts exactly the strings in which every
colon-separated component (any positive number of components) parses as a
Rust float literal. -/
theorem c9_amended (s : List Char) :
    is_timing s = .ok () ↔ (splitOnChar ':' s).all isF64B = true := by
  have key : (sequenceOpt ((rsplitColon s).map parseF64)).isSome =
      (splitOnChar ':' s).all isF64B := by
    rw [sequenceOpt_isSome, all_parse]
  constructor
  · intro h
    rw [← key]
    cases hs : sequenceOpt ((rsplitColon s).map parseF64) with
    | none =>
      unfold is_timing at h
      rw [hs] at h
      exact Except.noConfusion h
    | some u => rfl
  · intro h
    rw [← key] at h
    obtain ⟨u, hu⟩ := Option.isSome_iff_exists.mp h
    unfold is_timing
    rw [hu]

/-- C10: for every filename accepted by the `is_srt_or_vtt` validator,
`smart_name` is panic-free: whenever the tag regex matches, the inner
magnitude regex also matches (so the `unwrap`s and the parse succeed), and
`smart_name` returns `Ok`. -/
theorem c10_smart_name_safe (f : List Char) (sec : SQ) (p : Bool)
    (h : is_srt_or_vtt f = .ok ()) :
    (∀ st v r, tagSplit f = some (st, v, r) → (magSplit f).isSome = true) ∧
    ∃ o, smart_name f sec p = .ok o := by
  have hlen : 4 ≤ f.length := by
    unfold is_srt_or_vtt at h
    split at h
    · next hcond =>
      rcases hcond with hc | hc
      · have := isSuffixOf_length hc
        rw [show srtExt.length = 4 from rfl] at this
        omega
      · have := isSuffixOf_length hc
        rw [show vttExt.length = 4 from rfl] at this
        omega
    · exact Except.noConfusion h
  exact ⟨fun st v r ht => magSplit_of_tagSplit ht, smart_name_total hlen sec p⟩

theorem magSplit_of_tagParse {W : List Char} {v : SQ} {r : List Char}
    (h : tagParse ('_' :: '_' :: '[' :: W) = some (v, r)) :
    magSplit ('_' :: '_' :: '[' :: W) = some v := by
  obtain ⟨w', m, heq, hmag, -⟩ := tagParse_inv h
  rw [List.cons.injEq, List.cons.injEq, List.cons.injEq] at heq
  obtain rfl : W = w' := heq.2.2.2
  rw [magSplit_cons_none (magParse_not_sign (by decide) _)]
  rw [magSplit_cons_none (magParse_not_sign (by decide) _)]
  rw [magSplit_cons_none (magParse_not_sign (by decide) _)]
  cases W with
  | nil =>
    rw [magParse_nil] at hmag
    exact Option.noConfusion hmag
  | cons c t => exact magSplit_cons_some hmag

/-- C1 counterexample: offsets 0.004 then 0.003 (same flag) both yield
`movie__[+0.00_Sec+].srt`, while the single offset 0.004 + 0.003 = 0.007
yields `movie__[+0.01_Sec+].srt`: the tag records the first offset only to
two decimals, so chaining is not idempotent for offsets that are not
multiples of 0.01. -/
theorem c1_counterexample :
    smart_name movieSrt ⟨false, 1/250⟩ false = .ok movieT000 ∧
    smart_name movieT000 ⟨false, 3/1000⟩ false = .ok movieT000 ∧
    smart_name movieSrt (SQ.add ⟨false, 1/250⟩ ⟨false, 3/1000⟩) false = .ok movieT001 ∧
    movieT000 ≠ movieT001 := by
  with_unfolding_all decide

/-- C1 amended: for an untagged `.srt`/`.vtt` filename whose stem contains
no `[+-]digits.digits` substring, and a first offset `x` that is an exact
multiple of 0.01 (so the printed tag records it exactly), is well formed and
is not negative zero, applying `smart_name` with `x` and then `y` (same
flag) equals applying it once with `x + y`. -/
theorem c1_idempotent (f : List Char) (x y : SQ) (p : Bool)
    (hsuf : srtExt.isSuffixOf f = true ∨ vttExt.isSuffixOf f = true)
    (ht : tagSplit f = none)
    (hnm : noMagB (f.take (f.length - 4)) = true)
    (hx0 : 0 ≤ x.mag) (hxnz : notNegZero x)
    (hcenti : (100 * x.mag).den = 1) :
    ∃ o1 o2 o3,
      smart_name f x p = .ok o1 ∧
      smart_name o1 y p = .ok o2 ∧
      smart_name f (SQ.add x y) p = .ok o3 ∧ o2 = o3 := by
  have h4 : 4 ≤ f.length := by
    rcases hsuf with hc | hc
    · have := isSuffixOf_length hc
      rw [show srtExt.length = 4 from rfl] at this
      omega
    · have := isSuffixOf_length hc
      rw [show vttExt.length = 4 from rfl] at this
      omega
  have hmk : (if p then '-' else '+') = '+' ∨ (if p then '-' else '+') = '-' := by
    cases p
    · exact Or.inl rfl
    · exact Or.inr rfl
  have hxeq : (⟨x.neg, (rdN x.mag : ℚ) / 100⟩ : SQ) = x := by
    rw [SQ.mk.injEq]
    refine ⟨rfl, ?_⟩
    rw [rdN_exact hx0 hcenti]
    exact mul_div_cancel_left₀ x.mag (by norm_num)
  have hW : tagRender x (if p then '-' else '+') ++ f.drop (f.length - 4) =
      '_' :: '_' :: '[' :: (signDig x ++ '_' ::
        ('S' :: 'e' :: 'c' :: (if p then '-' else '+') :: ']' :: f.drop (f.length - 4))) := by
    simp [tagRender]
  have htagWx : tagParse ('_' :: '_' :: '[' :: (signDig x ++ '_' ::
      ('S' :: 'e' :: 'c' :: (if p then '-' else '+') :: ']' :: f.drop (f.length - 4)))) =
      some (x, f.drop (f.length - 4)) := by
    rw [← hW, tagParse_render hx0 hxnz hmk _, hxeq]
  have htsplit : tagSplit (f.take (f.length - 4) ++ tagRender x (if p then '-' else '+') ++
      f.drop (f.length - 4)) = some (f.take (f.length - 4), x, f.drop (f.length - 4)) := by
    rw [List.append_assoc, hW]
    exact tagSplit_pre hnm htagWx
  have hmsplit : magSplit (f.take (f.length - 4) ++ tagRender x (if p then '-' else '+') ++
      f.drop (f.length - 4)) = some x := by
    rw [List.append_assoc, hW, magSplit_append hnm]
    exact magSplit_of_tagParse htagWx
  have h4o1 := tagSplit_length htsplit
  have hlenE : (f.drop (f.length - 4)).length = 4 := by
    rw [List.length_drop]
    omega
  have hdrop : (f.take (f.length - 4) ++ tagRender x (if p then '-' else '+') ++
      f.drop (f.length - 4)).drop
        ((f.take (f.length - 4) ++ tagRender x (if p then '-' else '+') ++
          f.drop (f.length - 4)).length - 4) = f.drop (f.length - 4) := by
    have h2 : (f.take (f.length - 4) ++ tagRender x (if p then '-' else '+') ++
        f.drop (f.length - 4)).length - 4 =
        (f.take (f.length - 4) ++ tagRender x (if p then '-' else '+')).length := by
      rw [List.length_append (f.take (f.length - 4) ++ tagRender x (if p then '-' else '+'))
        (f.drop (f.length - 4)), hlenE]
      omega
    rw [h2, List.drop_left]
  refine ⟨f.take (f.length - 4) ++ tagRender x (if p then '-' else '+') ++
      f.drop (f.length - 4),
    f.take (f.length - 4) ++ tagRender (SQ.add x y) (if p then '-' else '+') ++
      f.drop (f.length - 4),
    f.take (f.length - 4) ++ tagRender (SQ.add x y) (if p then '-' else '+') ++
      f.drop (f.length - 4),
    smart_name_eq_fresh h4 ht x p, ?_,
    smart_name_eq_fresh h4 ht (SQ.add x y) p, rfl⟩
  rw [smart_name_eq_tagged h4o1 htsplit hmsplit y p, hdrop]

/-- C1 witness: `movie.srt` with offsets +1.50 then +0.50 (full flag). -/
theorem c1_witness :
    ((srtExt.isSuffixOf movieSrt = true ∨ vttExt.isSuffixOf movieSrt = true) ∧
      tagSplit movieSrt = none ∧
      noMagB (movieSrt.take (movieSrt.length - 4)) = true ∧
      0 ≤ (SQ.mk false (3/2)).mag ∧ notNegZero ⟨false, 3/2⟩ ∧
      (100 * (SQ.mk false (3/2)).mag).den = 1) ∧
    ∃ o1 o2 o3,
      smart_name movieSrt ⟨false, 3/2⟩ false = .ok o1 ∧
      smart_name o1 ⟨false, 1/2⟩ false = .ok o2 ∧
      smart_name movieSrt (SQ.add ⟨false, 3/2⟩ ⟨false, 1/2⟩) false = .ok o3 ∧ o2 = o3 :=
  ⟨⟨Or.inl (by decide), by with_unfolding_all decide, by with_unfolding_all decide,
      by with_unfolding_all decide, by with_unfolding_all decide,
      by with_unfolding_all decide⟩,
    c1_idempotent movieSrt ⟨false, 3/2⟩ ⟨false, 1/2⟩ false (Or.inl (by decide))
      (by with_unfolding_all decide) (by with_unfolding_all decide)
      (by with_unfolding_all decide) (by with_unfolding_all decide)
      (by with_unfolding_all decide)⟩

/-- C5: the marker of the emitted tag reflects the current invocation's
partial flag, regardless of the existing tag's marker: on a filename bearing
a tag, the two flag values give outputs that differ only at the marker
character (`-` for partial, `+` for full), the accumulated magnitude and all
other characters being identical. -/
theorem c5_marker_flag (f : List Char) (sec : SQ) (st : List Char) (v : SQ) (r : List Char)
    (h : tagSplit f = some (st, v, r)) :
    ∃ A B, smart_name f sec true = .ok (A ++ '-' :: B) ∧
      smart_name f sec false = .ok (A ++ '+' :: B) ∧
      ∃ A0, A = A0 ++ ['_', 'S', 'e', 'c'] := by
  have h4 := tagSplit_length h
  obtain ⟨w, hw⟩ := Option.isSome_iff_exists.mp (magSplit_of_tagSplit h)
  rw [smart_name_eq_tagged h4 h hw sec true, smart_name_eq_tagged h4 h hw sec false]
  refine ⟨st ++ ('_' :: '_' :: '[' :: signDig (SQ.add w sec)) ++ ['_', 'S', 'e', 'c'],
    ']' :: f.drop (f.length - 4), ?_, ?_,
    st ++ ('_' :: '_' :: '[' :: signDig (SQ.add w sec)), rfl⟩
  · simp [tagRender, List.append_assoc]
  · simp [tagRender, List.append_assoc]

/-- C5 witness: on the tagged filename `movie__[+1.50_Sec+].srt` the two
flag values differ only at the marker. -/
theorem c5_witness :
    tagSplit movieT150 = some (['m', 'o', 'v', 'i', 'e'], ⟨false, 3/2⟩, ['.', 's', 'r', 't']) ∧
    ∃ A B, smart_name movieT150 ⟨false, 1⟩ true = .ok (A ++ '-' :: B) ∧
      smart_name movieT150 ⟨false, 1⟩ false = .ok (A ++ '+' :: B) ∧
      ∃ A0, A = A0 ++ ['_', 'S', 'e', 'c'] :=
  ⟨by with_unfolding_all decide,
    c5_marker_flag movieT150 ⟨false, 1⟩ ['m', 'o', 'v', 'i', 'e'] ⟨false, 3/2⟩
      ['.', 's', 'r', 't'] (by with_unfolding_all decide)⟩

/-- Unfolding equation for the spec-side tag test. -/
theorem tag2At_cons (s : Char) (r : List Char) :
    tag2At ('_' :: '_' :: '[' :: s :: r) =
      if s = '+' ∨ s = '-' then
        decide (r.takeWhile isDig ≠ []) &&
          (match r.dropWhile isDig with
           | '.' :: u :: v :: '_' :: 'S' :: 'e' :: 'c' :: m :: ']' :: _ =>
             isDig u && isDig v && decide (m = '+' ∨ m = '-')
           | _ => false)
      else false := rfl

theorem tag2At_render {incr : SQ} (h0 : 0 ≤ incr.mag) (hnz : notNegZero incr)
    {m : Char} (hm : m = '+' ∨ m = '-') (rest : List Char) :
    tag2At (tagRender incr m ++ rest) = true := by
  obtain ⟨s, hs, hsneg, hsig⟩ := signDig_eq h0 hnz
  have hshape : tagRender incr m ++ rest =
      '_' :: '_' :: '[' :: s :: (natDigits (rdN incr.mag / 100) ++ '.' ::
        (digitChar (rdN incr.mag / 10 % 10) :: digitChar (rdN incr.mag % 10) ::
          '_' :: 'S' :: 'e' :: 'c' :: m :: ']' :: rest)) := by
    simp [tagRender, hsig]
  rw [hshape, tag2At_cons, if_pos hs]
  rw [takeWhile_digits (natDigits_all_dig _) (by decide),
    dropWhile_digits (natDigits_all_dig _) (by decide)]
  rcases hm with rfl | rfl <;>
    simp [natDigits_ne_nil, (digitChar_spec (rdN incr.mag / 10 % 10) (by omega)).1,
      (digitChar_spec (rdN incr.mag % 10) (by omega)).1]

theorem specTagScan_append (pre : List Char) {Q : List Char} (hQ : tag2At Q = true) :
    specTagScan (pre ++ Q) = true := by
  induction pre with
  | nil =>
    rw [List.nil_append]
    cases Q with
    | nil => exact absurd hQ (by decide)
    | cons c t =>
      simp only [specTagScan]
      rw [hQ]
      rfl
  | cons c t ih =>
    rw [List.cons_append]
    simp only [specTagScan]
    rw [ih]
    simp

/-- C4 counterexample: at IEEE negative zero the emitted "tag" is
`__[+-0.00_Sec+]`, which matches no well-formed NameTag (the sign slot holds
`+-`), refuting the claim for that offset. -/
theorem c4_counterexample :
    smart_name movieSrt ⟨true, 0⟩ false = .ok movieTneg0 ∧
    specTagScan movieTneg0 = false := by
  with_unfolding_all decide

/-- C4 amended: for every filename of length at least 4 and every offset
that is well formed (nonnegative magnitude) and not IEEE negative zero,
`smart_name` succeeds and its output contains a substring of the form
`__[<sign><digits>.<dd>_Sec<marker>]` — explicit sign, exactly two decimal
digits. -/
theorem c4_tag_format (f : List Char) (sec : SQ) (p : Bool) (h4 : 4 ≤ f.length)
    (h0 : 0 ≤ sec.mag) (hnz : notNegZero sec) :
    ∃ out, smart_name f sec p = .ok out ∧ specTagScan out = true := by
  have hmk : (if p then '-' else '+') = '+' ∨ (if p then '-' else '+') = '-' := by
    cases p
    · exact Or.inl rfl
    · exact Or.inr rfl
  cases ht : tagSplit f with
  | none =>
    refine ⟨_, smart_name_eq_fresh h4 ht sec p, ?_⟩
    rw [List.append_assoc]
    exact specTagScan_append _ (tag2At_render h0 hnz hmk _)
  | some q =>
    obtain ⟨st, v, r⟩ := q
    obtain ⟨w, hw⟩ := Option.isSome_iff_exists.mp (magSplit_of_tagSplit ht)
    refine ⟨_, smart_name_eq_tagged h4 ht hw sec p, ?_⟩
    rw [List.append_assoc]
    exact specTagScan_append _ (tag2At_render (SQ.add_mag_nonneg w sec)
      (SQ.add_notNegZero (magSplit_val_nonneg hw) h0 hnz) hmk _)

/-- C4 witness: at `movie.srt` with offset +1.00 the hypotheses hold and the
output carries a well-formed two-decimal tag. -/
theorem c4_witness :
    (4 ≤ movieSrt.length ∧ 0 ≤ (SQ.mk false 1).mag ∧ notNegZero ⟨false, 1⟩) ∧
    ∃ out, smart_name movieSrt ⟨false, 1⟩ false = .ok out ∧ specTagScan out = true :=
  ⟨⟨by decide, by with_unfolding_all decide, by with_unfolding_all decide⟩,
    c4_tag_format movieSrt ⟨false, 1⟩ false (by decide) (by with_unfolding_all decide)
      (by with_unfolding_all decide)⟩

/-- C2 counterexample: on `v+1.5__[+3.00_Sec+]X.srt` with offset +0.50 the
code returns `v+1.5__[+2.00_Sec+].srt`: the magnitude is taken from the
leftmost sign-decimal substring `+1.5` in the stem rather than from the tag
(whose magnitude is 3.00, recorded by the `tagSplit` conjunct), and the
character `X` between the tag and the extension is dropped rather than
preserved. -/
theorem c2_counterexample :
    smart_name c2file ⟨false, 1/2⟩ false = .ok c2out ∧
    c2file.contains 'X' = true ∧ c2out.contains 'X' = false ∧
    tagSplit c2file = some (['v', '+', '1', '.', '5'], ⟨false, 3⟩, ['X', '.', 's', 'r', 't']) := by
  with_unfolding_all decide

/-- C2 amended: when the prefix before the tag contains no sign-decimal
substring, the tag is immediately followed by the `.srt`/`.vtt` extension,
and the offset is well formed and not negative zero, `smart_name` extracts
the tag's signed magnitude, adds the offset, and returns the prefix with
only the tag replaced before the extension; the result contains exactly one
tag occurrence.  (In general the code takes the leftmost sign-decimal match
in the whole filename as the previous magnitude and drops everything between
the first tag and the final four characters.) -/
theorem c2_tag_replacement (pre : List Char) (sgn : Char) (ds fs : List Char) (mk0 : Char)
    (ext : List Char) (sec : SQ) (p : Bool)
    (hnm : noMagB pre = true)
    (hsgn : sgn = '+' ∨ sgn = '-')
    (hds : ds ≠ []) (hdsd : ds.all isDig = true)
    (hfs : fs ≠ []) (hfsd : fs.all isDig = true)
    (hmk0 : mk0 = '+' ∨ mk0 = '-')
    (hext : ext = srtExt ∨ ext = vttExt)
    (h0 : 0 ≤ sec.mag) (hnz : notNegZero sec) :
    smart_name (pre ++ '_' :: '_' :: '[' :: sgn :: (ds ++ '.' :: (fs ++ '_' ::
        ('S' :: 'e' :: 'c' :: mk0 :: ']' :: ext)))) sec p =
      .ok (pre ++ tagRender
        (SQ.add ⟨sgn == '-', (digitsVal ds : ℚ) + (digitsVal fs : ℚ) / 10 ^ fs.length⟩ sec)
        (if p then '-' else '+') ++ ext) ∧
    tagCount (pre ++ tagRender
        (SQ.add ⟨sgn == '-', (digitsVal ds : ℚ) + (digitsVal fs : ℚ) / 10 ^ fs.length⟩ sec)
        (if p then '-' else '+') ++ ext) = 1 := by
  have hmk : (if p then '-' else '+') = '+' ∨ (if p then '-' else '+') = '-' := by
    cases p
    · exact Or.inl rfl
    · exact Or.inr rfl
  have hextlen : ext.length = 4 := by
    rcases hext with rfl | rfl <;> rfl
  have hQparse : magParse (sgn :: (ds ++ '.' :: (fs ++ '_' ::
      ('S' :: 'e' :: 'c' :: mk0 :: ']' :: ext)))) =
      some (⟨sgn == '-', (digitsVal ds : ℚ) + (digitsVal fs : ℚ) / 10 ^ fs.length⟩,
        '_' :: ('S' :: 'e' :: 'c' :: mk0 :: ']' :: ext)) :=
    magParse_render hsgn hds hdsd hfs hfsd (by decide) _
  have htagQ : tagParse ('_' :: '_' :: '[' :: (sgn :: (ds ++ '.' :: (fs ++ '_' ::
      ('S' :: 'e' :: 'c' :: mk0 :: ']' :: ext))))) =
      some (⟨sgn == '-', (digitsVal ds : ℚ) + (digitsVal fs : ℚ) / 10 ^ fs.length⟩, ext) :=
    tagParse_of_magParse hQparse hmk0
  have htsplit := tagSplit_pre hnm htagQ
  have h4 := tagSplit_length htsplit
  have hmsplit : magSplit (pre ++ '_' :: '_' :: '[' :: sgn :: (ds ++ '.' :: (fs ++ '_' ::
      ('S' :: 'e' :: 'c' :: mk0 :: ']' :: ext)))) =
      some ⟨sgn == '-', (digitsVal ds : ℚ) + (digitsVal fs : ℚ) / 10 ^ fs.length⟩ := by
    rw [magSplit_append hnm]
    exact magSplit_of_tagParse htagQ
  have hfshape : pre ++ '_' :: '_' :: '[' :: sgn :: (ds ++ '.' :: (fs ++ '_' ::
      ('S' :: 'e' :: 'c' :: mk0 :: ']' :: ext))) =
      (pre ++ '_' :: '_' :: '[' :: sgn :: (ds ++ '.' :: (fs ++
        ['_', 'S', 'e', 'c', mk0, ']']))) ++ ext := by
    simp
  have hdropf : (pre ++ '_' :: '_' :: '[' :: sgn :: (ds ++ '.' :: (fs ++ '_' ::
      ('S' :: 'e' :: 'c' :: mk0 :: ']' :: ext)))).drop
      ((pre ++ '_' :: '_' :: '[' :: sgn :: (ds ++ '.' :: (fs ++ '_' ::
        ('S' :: 'e' :: 'c' :: mk0 :: ']' :: ext)))).length - 4) = ext := by
    rw [hfshape]
    have h2 : ((pre ++ '_' :: '_' :: '[' :: sgn :: (ds ++ '.' :: (fs ++
        ['_', 'S', 'e', 'c', mk0, ']']))) ++ ext).length - 4 =
        (pre ++ '_' :: '_' :: '[' :: sgn :: (ds ++ '.' :: (fs ++
          ['_', 'S', 'e', 'c', mk0, ']']))).length := by
      rw [List.length_append, hextlen]
      omega
    rw [h2, List.drop_left]
  have hprev0 : (0 : ℚ) ≤ (digitsVal ds : ℚ) + (digitsVal fs : ℚ) / 10 ^ fs.length := by
    positivity
  have hincr0 := SQ.add_mag_nonneg
    ⟨sgn == '-', (digitsVal ds : ℚ) + (digitsVal fs : ℚ) / 10 ^ fs.length⟩ sec
  have hincrnz := SQ.add_notNegZero
    (a := ⟨sgn == '-', (digitsVal ds : ℚ) + (digitsVal fs : ℚ) / 10 ^ fs.length⟩)
    hprev0 h0 hnz
  constructor
  · rw [smart_name_eq_tagged h4 htsplit hmsplit sec p, hdropf]
  · have hTRshape : tagRender
        (SQ.add ⟨sgn == '-', (digitsVal ds : ℚ) + (digitsVal fs : ℚ) / 10 ^ fs.length⟩ sec)
        (if p then '-' else '+') ++ ext =
        '_' :: '_' :: '[' :: (signDig
          (SQ.add ⟨sgn == '-', (digitsVal ds : ℚ) + (digitsVal fs : ℚ) / 10 ^ fs.length⟩ sec) ++
          '_' :: ('S' :: 'e' :: 'c' :: (if p then '-' else '+') :: ']' :: ext)) := by
      simp [tagRender]
    rw [List.append_assoc, hTRshape, tagCount_pre hnm, ← hTRshape]
    exact tagCount_render hincr0 hincrnz hmk hext

/-- C2 witness: replacing the tag of `movie__[+1.50_Sec+].srt` with offset
+0.50, partial flag. -/
theorem c2_witness :
    (noMagB ['m', 'o', 'v', 'i', 'e'] = true ∧
      (('+' : Char) = '+' ∨ ('+' : Char) = '-') ∧
      (['1'] : List Char) ≠ [] ∧ (['1'] : List Char).all isDig = true ∧
      (['5', '0'] : List Char) ≠ [] ∧ (['5', '0'] : List Char).all isDig = true ∧
      (srtExt = srtExt ∨ srtExt = vttExt) ∧
      0 ≤ (SQ.mk false (1/2)).mag ∧ notNegZero ⟨false, 1/2⟩) ∧
    (smart_name (['m', 'o', 'v', 'i', 'e'] ++ '_' :: '_' :: '[' :: '+' :: (['1'] ++ '.' ::
        (['5', '0'] ++ '_' :: ('S' :: 'e' :: 'c' :: '+' :: ']' :: srtExt)))) ⟨false, 1/2⟩ true =
      .ok (['m', 'o', 'v', 'i', 'e'] ++ tagRender
        (SQ.add ⟨'+' == '-', (digitsVal ['1'] : ℚ) + (digitsVal ['5', '0'] : ℚ) /
          10 ^ (['5', '0'] : List Char).length⟩ ⟨false, 1/2⟩)
        (if true then '-' else '+') ++ srtExt) ∧
    tagCount (['m', 'o', 'v', 'i', 'e'] ++ tagRender
        (SQ.add ⟨'+' == '-', (digitsVal ['1'] : ℚ) + (digitsVal ['5', '0'] : ℚ) /
          10 ^ (['5', '0'] : List Char).length⟩ ⟨false, 1/2⟩)
        (if true then '-' else '+') ++ srtExt) = 1) :=
  ⟨⟨by decide, Or.inl rfl, by decide, by decide, by decide, by decide, Or.inl rfl,
      by with_unfolding_all decide, by with_unfolding_all decide⟩,
    c2_tag_replacement ['m', 'o', 'v', 'i', 'e'] '+' ['1'] ['5', '0'] '+' srtExt
      ⟨false, 1/2⟩ true (by decide) (Or.inl rfl) (by decide) (by decide) (by decide)
      (by decide) (Or.inl rfl) (Or.inl rfl) (by with_unfolding_all decide)
      (by with_unfolding_all decide)⟩

/-- C8 counterexample: the input `a.b` has a valid stem `a` and extension
`b`, yet `get_paths` with preserve-original crashes (the Rust code panics
slicing `a.b[len-4..]`) instead of returning a backup path. -/
theorem c8_counterexample :
    fileStem ['a', '.', 'b'] = some ['a'] ∧ extension ['a', '.', 'b'] = some ['b'] ∧
    parentStr ['a', '.', 'b'] = some [] ∧
    get_paths ['a', '.', 'b'] ⟨false, 1⟩ false none none (some ()) = .error Err.crash := by
  with_unfolding_all decide

/-- C8 amended: when the input resolves to a parent, file name, stem and
extension, no explicit output is supplied, and the output file name handed
to the namer (after any conversion) has at least four characters — which the
deployed tool guarantees through the `.srt`/`.vtt` validation — `get_paths`
with preserve-original returns the backup path
`parent/<stem>__[Original].<original-extension>`. -/
theorem c8_backup_path (input : List Char) (sec : SQ) (p : Bool) (conv : Option (List Char))
    (par fn st ex cn : List Char)
    (hpar : parentStr input = some par) (hfn : fileName input = some fn)
    (hst : fileStem input = some st) (hex : extension input = some ex)
    (hcn : (match conv with
            | some t => (dropLastExt fn).map (fun b => b ++ '.' :: t)
            | none => some fn) = some cn)
    (hlen : 4 ≤ cn.length) :
    ∃ out, get_paths input sec p none conv (some ()) =
      .ok (input, out, some (pathJoin par (st ++ origMarker ++ ex))) := by
  obtain ⟨o, ho⟩ := smart_name_total hlen sec p
  refine ⟨pathJoin par o, ?_⟩
  cases conv with
  | none =>
    replace hcn : some fn = some cn := hcn
    rw [Option.some.injEq] at hcn
    subst hcn
    simp only [get_paths, hpar, hfn, ho, hst, hex]
  | some t =>
    replace hcn : (dropLastExt fn).map (fun b => b ++ '.' :: t) = some cn := hcn
    cases hdl : dropLastExt fn with
    | none =>
      rw [hdl] at hcn
      exact absurd hcn (by simp)
    | some base =>
      rw [hdl, Option.map_some', Option.some.injEq] at hcn
      subst hcn
      simp only [get_paths, hpar, hfn, hdl, Option.map_some', ho, hst, hex]

/-- C8 witness: `dir/movie.srt` with preserve-original yields the backup
path `dir/movie__[Original].srt`. -/
theorem c8_witness :
    (parentStr ['d', 'i', 'r', '/', 'm', 'o', 'v', 'i', 'e', '.', 's', 'r', 't'] =
        some ['d', 'i', 'r'] ∧
      fileName ['d', 'i', 'r', '/', 'm', 'o', 'v', 'i', 'e', '.', 's', 'r', 't'] =
        some movieSrt ∧
      fileStem ['d', 'i', 'r', '/', 'm', 'o', 'v', 'i', 'e', '.', 's', 'r', 't'] =
        some ['m', 'o', 'v', 'i', 'e'] ∧
      extension ['d', 'i', 'r', '/', 'm', 'o', 'v', 'i', 'e', '.', 's', 'r', 't'] =
        some ['s', 'r', 't'] ∧
      4 ≤ movieSrt.length) ∧
    ∃ out, get_paths ['d', 'i', 'r', '/', 'm', 'o', 'v', 'i', 'e', '.', 's', 'r', 't']
        ⟨false, 1⟩ false none none (some ()) =
      .ok (['d', 'i', 'r', '/', 'm', 'o', 'v', 'i', 'e', '.', 's', 'r', 't'], out,
        some (pathJoin ['d', 'i', 'r'] (['m', 'o', 'v', 'i', 'e'] ++ origMarker ++
          ['s', 'r', 't']))) :=
  ⟨⟨by decide, by decide, by decide, by decide, by decide⟩,
    c8_backup_path ['d', 'i', 'r', '/', 'm', 'o', 'v', 'i', 'e', '.', 's', 'r', 't']
      ⟨false, 1⟩ false none ['d', 'i', 'r'] movieSrt ['m', 'o', 'v', 'i', 'e']
      ['s', 'r', 't'] movieSrt (by decide) (by decide) (by decide) (by decide)
      (by decide) (by decide)⟩

/-- C10 witness: the validator accepts `movie.srt` and `smart_name`
succeeds on it. -/
theorem c10_witness :
    is_srt_or_vtt movieSrt = .ok () ∧
    ((∀ st v r, tagSplit movieSrt = some (st, v, r) → (magSplit movieSrt).isSome = true) ∧
      ∃ o, smart_name movieSrt ⟨false, 1⟩ false = .ok o) :=
  ⟨by decide, c10_smart_name_safe movieSrt ⟨false, 1⟩ false (by decide)⟩

end Submod
